import Mathlib

/-!
# `fibonacci_ext` (R/live_demo/fibonacci.cpp)

```cpp
int fibonacci_ext(int n) {
  if (n < 2) {
    return (n);
  } else {
    return (fibonacci_ext(n - 1) + fibonacci_ext(n - 2));
  }
}
```

The C++ type `int` is taken to be the 32-bit signed integer.  Values are
mathematical integers (`Int`); the result of an `int` addition is brought back
into the 32-bit range explicitly.  The subtractions `n - 1` and `n - 2` are only
executed when `2 ≤ n`, where they cannot leave the range, so they are left
exact (`sub_in_range`).

Four readings of the same function body are given:

* `fibonacci_ext`          the function with wrap-around `int` addition;
* `fibonacci_ext_checked`  the same body, where an overflowing addition yields
                           `none` instead of a value;
* `fibonacci_ext_fuel`     the wrap-around body run with a bound on the number
                           of nested activations (`none` when the bound is hit);
* `trace`                  the tree of activations the body unfolds into.
-/

namespace FibonacciExt

/-! ## 32-bit `int` -/

/-- Smallest value of a 32-bit signed `int`. -/
def INT_MIN : Int := -2147483648

/-- Largest value of a 32-bit signed `int`. -/
def INT_MAX : Int := 2147483647

/-- Membership in the range of a 32-bit signed `int`. -/
def inRange (x : Int) : Prop := INT_MIN ≤ x ∧ x ≤ INT_MAX

instance (x : Int) : Decidable (inRange x) := by
  unfold inRange; exact inferInstance

/-- Reduce an integer modulo `2^32` and read the 32 bits as a signed value. -/
def wrap32 (x : Int) : Int :=
  let r := x % 4294967296
  if r < 2147483648 then r else r - 4294967296

/-- Addition on `int` with two's-complement wrap-around. -/
def int_add (a b : Int) : Int := wrap32 (a + b)

/-- Addition on `int` that has no value when the exact sum leaves the range. -/
def checked_add (a b : Int) : Option Int :=
  if inRange (a + b) then some (a + b) else none

/-! ## The function -/

/-- The source function, `int` addition wrapping around. -/
def fibonacci_ext (n : Int) : Int :=
  if n < 2 then
    n
  else
    int_add (fibonacci_ext (n - 1)) (fibonacci_ext (n - 2))
termination_by n.toNat
decreasing_by all_goals omega

/-- The source function, an overflowing addition giving `none`. -/
def fibonacci_ext_checked (n : Int) : Option Int :=
  if n < 2 then
    some n
  else
    match fibonacci_ext_checked (n - 1), fibonacci_ext_checked (n - 2) with
    | some a, some b => checked_add a b
    | _, _ => none
termination_by n.toNat
decreasing_by all_goals omega

/-- The source function run with at most `fuel` nested activations; `none`
when an activation would be needed beyond that bound. -/
def fibonacci_ext_fuel : Nat → Int → Option Int
  | 0, _ => none
  | fuel + 1, n =>
    if n < 2 then
      some n
    else
      match fibonacci_ext_fuel fuel (n - 1), fibonacci_ext_fuel fuel (n - 2) with
      | some a, some b => some (int_add a b)
      | _, _ => none

/-! ## The tree of activations -/

/-- One activation of `fibonacci_ext` together with the activations it starts:
`leaf n` took the branch `n < 2` and called nothing, `node n l r` took the
other branch and called `fibonacci_ext (n - 1)` (`l`) and
`fibonacci_ext (n - 2)` (`r`). -/
inductive CallTree where
  | leaf (arg : Int) : CallTree
  | node (arg : Int) (l r : CallTree) : CallTree

namespace CallTree

/-- Argument of the activation at the root. -/
def arg : CallTree → Int
  | leaf n => n
  | node n _ _ => n

/-- Activations started directly by the root activation. -/
def kids : CallTree → List CallTree
  | leaf _ => []
  | node _ l r => [l, r]

/-- Value returned by the root activation. -/
def value : CallTree → Int
  | leaf n => n
  | node _ l r => int_add l.value r.value

/-- Number of activations in the tree. -/
def calls : CallTree → Nat
  | leaf _ => 1
  | node _ l r => 1 + l.calls + r.calls

/-- Largest number of activations that are live at the same time, the root
included. -/
def depth : CallTree → Nat
  | leaf _ => 1
  | node _ l r => 1 + max l.depth r.depth

/-- All activations of the tree, the root first. -/
def activations : CallTree → List CallTree
  | leaf n => [leaf n]
  | node n l r => node n l r :: (l.activations ++ r.activations)

end CallTree

/-- The activations performed by a call `fibonacci_ext n`. -/
def trace (n : Int) : CallTree :=
  if n < 2 then
    CallTree.leaf n
  else
    CallTree.node n (trace (n - 1)) (trace (n - 2))
termination_by n.toNat
decreasing_by all_goals omega

/-! ## The Fibonacci numbers of the specification -/

/-- The sequence `F(0) = 0`, `F(1) = 1`, `F(n) = F(n-1) + F(n-2)` for `n ≥ 2`
of the specification's glossary. -/
def F : Nat → Nat
  | 0 => 0
  | 1 => 1
  | n + 2 => F (n + 1) + F n

/-! ## Unfolding lemmas -/

theorem fibonacci_ext_base {n : Int} (h : n < 2) : fibonacci_ext n = n := by
  rw [fibonacci_ext, if_pos h]

theorem fibonacci_ext_step {n : Int} (h : 2 ≤ n) :
    fibonacci_ext n = int_add (fibonacci_ext (n - 1)) (fibonacci_ext (n - 2)) := by
  rw [fibonacci_ext, if_neg (by omega)]

theorem fibonacci_ext_checked_base {n : Int} (h : n < 2) :
    fibonacci_ext_checked n = some n := by
  rw [fibonacci_ext_checked, if_pos h]

theorem fibonacci_ext_checked_step {n : Int} (h : 2 ≤ n) :
    fibonacci_ext_checked n =
      match fibonacci_ext_checked (n - 1), fibonacci_ext_checked (n - 2) with
      | some a, some b => checked_add a b
      | _, _ => none := by
  rw [fibonacci_ext_checked, if_neg (by omega)]

theorem trace_base {n : Int} (h : n < 2) : trace n = CallTree.leaf n := by
  rw [trace, if_pos h]

theorem trace_step {n : Int} (h : 2 ≤ n) :
    trace n = CallTree.node n (trace (n - 1)) (trace (n - 2)) := by
  rw [trace, if_neg (by omega)]

/-- The arguments of the two recursive calls stay inside the `int` range. -/
theorem sub_in_range {n : Int} (hn : inRange n) (h : 2 ≤ n) :
    inRange (n - 1) ∧ inRange (n - 2) := by
  simp only [inRange, INT_MIN, INT_MAX] at *
  omega

/-! ## Facts about `wrap32` -/

theorem wrap32_of_inRange {x : Int} (h : inRange x) : wrap32 x = x := by
  simp only [inRange, INT_MIN, INT_MAX] at h
  simp only [wrap32]
  split_ifs <;> omega

theorem wrap32_inRange (x : Int) : inRange (wrap32 x) := by
  simp only [inRange, INT_MIN, INT_MAX, wrap32]
  split_ifs <;> omega

theorem wrap32_add_wrap32 (a b : Int) : wrap32 (wrap32 a + wrap32 b) = wrap32 (a + b) := by
  simp only [wrap32]
  split_ifs <;> omega

/-! ## Facts about `F` -/

theorem F_succ_succ (k : Nat) : F (k + 2) = F (k + 1) + F k := rfl

theorem F_le_succ (k : Nat) : F k ≤ F (k + 1) := by
  cases k with
  | zero => decide
  | succ k => rw [F_succ_succ]; omega

theorem F_mono {a b : Nat} (h : a ≤ b) : F a ≤ F b := by
  induction h with
  | refl => exact Nat.le_refl _
  | step _ ih => exact Nat.le_trans ih (F_le_succ _)

theorem F_46 : F 46 = 1836311903 := by decide

theorem F_47 : F 47 = 2971215073 := by decide

theorem F_inRange {k : Nat} (h : k ≤ 46) : inRange (F k : Int) := by
  have h1 : F k ≤ F 46 := F_mono h
  rw [F_46] at h1
  simp only [inRange, INT_MIN, INT_MAX]
  omega

/-! ## The function on non-negative arguments -/

theorem fibonacci_ext_natCast_step (k : Nat) :
    fibonacci_ext ((k + 2 : Nat) : Int) =
      int_add (fibonacci_ext ((k + 1 : Nat) : Int)) (fibonacci_ext (k : Int)) := by
  rw [fibonacci_ext_step (by omega)]
  have e1 : ((k + 2 : Nat) : Int) - 1 = ((k + 1 : Nat) : Int) := by omega
  have e2 : ((k + 2 : Nat) : Int) - 2 = (k : Int) := by omega
  rw [e1, e2]

/-- The wrap-around function is the image of the exact sequence. -/
theorem fibonacci_ext_natCast (k : Nat) :
    fibonacci_ext (k : Int) = wrap32 (F k : Int) ∧
      fibonacci_ext ((k + 1 : Nat) : Int) = wrap32 (F (k + 1) : Int) := by
  induction k with
  | zero =>
    constructor
    · rw [fibonacci_ext_base (by decide)]; decide
    · rw [fibonacci_ext_base (by decide)]; decide
  | succ k ih =>
    refine ⟨ih.2, ?_⟩
    rw [fibonacci_ext_natCast_step, ih.1, ih.2, int_add, wrap32_add_wrap32, F_succ_succ]
    push_cast
    rfl

theorem fibonacci_ext_eq_wrap {n : Int} (h : 0 ≤ n) :
    fibonacci_ext n = wrap32 (F n.toNat : Int) := by
  have := (fibonacci_ext_natCast n.toNat).1
  rwa [Int.toNat_of_nonneg h] at this

theorem fibonacci_ext_eq_F {n : Int} (h0 : 0 ≤ n) (h1 : n ≤ 46) :
    fibonacci_ext n = (F n.toNat : Int) := by
  rw [fibonacci_ext_eq_wrap h0]
  exact wrap32_of_inRange (F_inRange (by omega))

theorem fibonacci_ext_47 : fibonacci_ext 47 = -1323752223 := by
  rw [fibonacci_ext_eq_wrap (by decide)]
  decide

/-! ## Induction along the recursion of the source -/

/-- A property that holds in the branch `n < 2` and is passed from the two
callees to the caller holds for every argument. -/
theorem call_induction {P : Int → Prop} (base : ∀ n, n < 2 → P n)
    (step : ∀ n, 2 ≤ n → P (n - 1) → P (n - 2) → P n) : ∀ n, P n := by
  have key : ∀ (k : Nat) (n : Int), n.toNat < k → P n := by
    intro k
    induction k with
    | zero => intro n h; omega
    | succ k ih =>
      intro n h
      by_cases hn : n < 2
      · exact base n hn
      · exact step n (by omega) (ih _ (by omega)) (ih _ (by omega))
  intro n
  exact key (n.toNat + 1) n (Nat.lt_succ_self _)

/-! ## The checked reading -/

theorem fibonacci_ext_checked_natCast_step (k : Nat) :
    fibonacci_ext_checked ((k + 2 : Nat) : Int) =
      match fibonacci_ext_checked ((k + 1 : Nat) : Int), fibonacci_ext_checked (k : Int) with
      | some a, some b => checked_add a b
      | _, _ => none := by
  rw [fibonacci_ext_checked_step (by omega)]
  have e1 : ((k + 2 : Nat) : Int) - 1 = ((k + 1 : Nat) : Int) := by omega
  have e2 : ((k + 2 : Nat) : Int) - 2 = (k : Int) := by omega
  rw [e1, e2]

theorem checked_add_F {k : Nat} (h : k + 2 ≤ 46) :
    checked_add (F (k + 1) : Int) (F k : Int) = some (F (k + 2) : Int) := by
  have hr : inRange ((F (k + 1) : Int) + (F k : Int)) := by
    have := F_inRange h
    rw [F_succ_succ] at this
    push_cast at this
    exact this
  rw [checked_add, if_pos hr, F_succ_succ]
  push_cast
  rfl

theorem fibonacci_ext_checked_natCast (k : Nat) :
    (k ≤ 46 → fibonacci_ext_checked (k : Int) = some (F k : Int)) ∧
      (k + 1 ≤ 46 →
        fibonacci_ext_checked ((k + 1 : Nat) : Int) = some (F (k + 1) : Int)) := by
  induction k with
  | zero =>
    constructor
    · intro _; rw [fibonacci_ext_checked_base (by decide)]; rfl
    · intro _; rw [fibonacci_ext_checked_base (by decide)]; rfl
  | succ k ih =>
    refine ⟨ih.2, ?_⟩
    intro h
    rw [fibonacci_ext_checked_natCast_step, ih.1 (by omega), ih.2 (by omega)]
    exact checked_add_F h

theorem fibonacci_ext_checked_eq_F {n : Int} (h0 : 0 ≤ n) (h1 : n ≤ 46) :
    fibonacci_ext_checked n = some (F n.toNat : Int) := by
  have := (fibonacci_ext_checked_natCast n.toNat).1 (by omega)
  rwa [Int.toNat_of_nonneg h0] at this

theorem fibonacci_ext_checked_47 : fibonacci_ext_checked 47 = none := by
  have h := fibonacci_ext_checked_natCast_step 45
  have h46 := (fibonacci_ext_checked_natCast 45).2 (by decide)
  have h45 := (fibonacci_ext_checked_natCast 45).1 (by decide)
  rw [h46, h45] at h
  have e : ((45 + 2 : Nat) : Int) = 47 := by decide
  rw [e] at h
  rw [h]
  decide

/-! ## The fuelled reading -/

theorem fibonacci_ext_fuel_complete (fuel : Nat) :
    ∀ n : Int, n.toNat < fuel → fibonacci_ext_fuel fuel n = some (fibonacci_ext n) := by
  induction fuel with
  | zero => intro n h; omega
  | succ fuel ih =>
    intro n h
    by_cases hn : n < 2
    · simp only [fibonacci_ext_fuel, if_pos hn]
      rw [fibonacci_ext_base hn]
    · simp only [fibonacci_ext_fuel, if_neg hn]
      have e : fibonacci_ext n = int_add (fibonacci_ext (n - 1)) (fibonacci_ext (n - 2)) :=
        fibonacci_ext_step (by omega)
      rw [ih (n - 1) (by omega), ih (n - 2) (by omega), e]

/-! ## The tree of activations of a call -/

theorem trace_arg (n : Int) : (trace n).arg = n := by
  by_cases h : n < 2
  · rw [trace_base h]; rfl
  · rw [trace_step (by omega)]; rfl

theorem trace_value : ∀ n : Int, (trace n).value = fibonacci_ext n := by
  apply call_induction
  · intro n h
    rw [trace_base h, fibonacci_ext_base h]; rfl
  · intro n h h1 h2
    rw [trace_step h, fibonacci_ext_step h, CallTree.value, h1, h2]

theorem trace_kids_base {n : Int} (h : n < 2) : (trace n).kids = [] := by
  rw [trace_base h]; rfl

theorem trace_kids_step {n : Int} (h : 2 ≤ n) :
    (trace n).kids = [trace (n - 1), trace (n - 2)] := by
  rw [trace_step h]; rfl

/-- Every activation inside the tree of a call is itself the tree of a call. -/
theorem trace_activations : ∀ n : Int, ∀ s ∈ (trace n).activations, s = trace s.arg := by
  apply call_induction
  · intro n h s hs
    rw [trace_base h, CallTree.activations, List.mem_singleton] at hs
    rw [hs, CallTree.arg, trace_base h]
  · intro n h h1 h2 s hs
    rw [trace_step h, CallTree.activations, List.mem_cons, List.mem_append] at hs
    rcases hs with hs | hs | hs
    · rw [hs, CallTree.arg, trace_step h]
    · exact h1 s hs
    · exact h2 s hs

theorem trace_natCast_step (k : Nat) :
    trace ((k + 2 : Nat) : Int) =
      CallTree.node ((k + 2 : Nat) : Int) (trace ((k + 1 : Nat) : Int)) (trace (k : Int)) := by
  have e : trace ((k + 2 : Nat) : Int) = _ := trace_step (by omega)
  have e1 : ((k + 2 : Nat) : Int) - 1 = ((k + 1 : Nat) : Int) := by omega
  have e2 : ((k + 2 : Nat) : Int) - 2 = (k : Int) := by omega
  rw [e1, e2] at e
  exact e

theorem trace_calls_natCast (k : Nat) :
    (trace (k : Int)).calls + 1 = 2 * F (k + 1) ∧
      (trace ((k + 1 : Nat) : Int)).calls + 1 = 2 * F (k + 2) := by
  induction k with
  | zero =>
    constructor
    · rw [trace_base (by decide)]; decide
    · rw [trace_base (by decide)]; decide
  | succ k ih =>
    refine ⟨ih.2, ?_⟩
    have e : F (k + 1 + 1) = F (k + 2) := rfl
    rw [trace_natCast_step, CallTree.calls, F_succ_succ (k + 1)]
    omega

theorem trace_depth_natCast (k : Nat) :
    (trace ((k + 1 : Nat) : Int)).depth = k + 1 ∧
      (trace ((k + 2 : Nat) : Int)).depth = k + 2 := by
  induction k with
  | zero =>
    constructor
    · rw [trace_base (by decide)]; rfl
    · rw [trace_natCast_step, trace_base (by decide), trace_base (by decide)]; rfl
  | succ k ih =>
    refine ⟨ih.2, ?_⟩
    rw [trace_natCast_step, CallTree.depth, ih.1, ih.2]
    omega

theorem two_pow_le_F (k : Nat) :
    2 ^ (k / 2) ≤ F (k + 1) ∧ 2 ^ ((k + 1) / 2) ≤ F (k + 2) := by
  induction k with
  | zero => constructor <;> decide
  | succ k ih =>
    refine ⟨ih.2, ?_⟩
    have e : (k + 1 + 1) / 2 = k / 2 + 1 := by omega
    have hm : F (k + 1) ≤ F (k + 2) := F_le_succ _
    have e2 : F (k + 1 + 1) = F (k + 2) := rfl
    rw [e, pow_succ, F_succ_succ (k + 1)]
    omega

/-! ## Further helper facts -/

theorem wrap32_congr (x : Int) : (wrap32 x - x) % 4294967296 = 0 := by
  simp only [wrap32]
  split_ifs <;> omega

theorem fibonacci_ext_natCast_eq_F {k : Nat} (h : k ≤ 46) :
    fibonacci_ext (k : Int) = (F k : Int) := by
  rw [(fibonacci_ext_natCast k).1]
  exact wrap32_of_inRange (F_inRange h)

theorem fibonacci_ext_exact_step {n : Int} (h : 2 ≤ n) (h1 : n ≤ 46) :
    fibonacci_ext n = fibonacci_ext (n - 1) + fibonacci_ext (n - 2) := by
  obtain ⟨k, rfl⟩ : ∃ k : Nat, n = ((k + 2 : Nat) : Int) := ⟨(n - 2).toNat, by omega⟩
  have e1 : ((k + 2 : Nat) : Int) - 1 = ((k + 1 : Nat) : Int) := by omega
  have e2 : ((k + 2 : Nat) : Int) - 2 = (k : Int) := by omega
  rw [e1, e2, fibonacci_ext_natCast_eq_F (by omega), fibonacci_ext_natCast_eq_F (by omega),
    fibonacci_ext_natCast_eq_F (by omega), F_succ_succ]
  push_cast
  rfl

theorem fibonacci_ext_46 : fibonacci_ext 46 = 1836311903 := by
  rw [fibonacci_ext_eq_F (by decide) (by decide)]
  decide

theorem fibonacci_ext_succ_ge {n : Int} (h0 : 0 ≤ n) (h1 : n ≤ 45) :
    fibonacci_ext n ≤ fibonacci_ext (n + 1) := by
  rw [fibonacci_ext_eq_F h0 (by omega), fibonacci_ext_eq_F (by omega) (by omega)]
  have e : (n + 1).toNat = n.toNat + 1 := by omega
  rw [e]
  exact_mod_cast F_le_succ n.toNat

theorem callee_toNat_lt {m n : Int} (h : ∃ s ∈ (trace n).kids, CallTree.arg s = m) :
    2 ≤ n ∧ (m = n - 1 ∨ m = n - 2) := by
  obtain ⟨s, hs, rfl⟩ := h
  by_cases hn : n < 2
  · rw [trace_kids_base hn] at hs
    simp at hs
  · have h2 : 2 ≤ n := by omega
    rw [trace_kids_step h2, List.mem_cons, List.mem_singleton] at hs
    refine ⟨h2, ?_⟩
    rcases hs with hs | hs
    · left; rw [hs, trace_arg]
    · right; rw [hs, trace_arg]

theorem callee_wf : WellFounded (fun m n : Int => ∃ s ∈ (trace n).kids, CallTree.arg s = m) := by
  refine Subrelation.wf ?_ (InvImage.wf Int.toNat Nat.lt_wfRel.wf)
  intro m n h
  have := callee_toNat_lt h
  show m.toNat < n.toNat
  omega

/-! ## The claims -/

/-- C1, as stated, fails at `n = 47`: the function returns `-1323752223` with
wrap-around addition (and has no value when overflow is excluded), whereas
`F(47) = 2971215073`. -/
theorem C1_counterexample :
    (0 : Int) ≤ 47 ∧ fibonacci_ext 47 = -1323752223 ∧ fibonacci_ext_checked 47 = none ∧
      F 47 = 2971215073 ∧ fibonacci_ext 47 ≠ (F (47 : Int).toNat : Int) := by
  refine ⟨by decide, fibonacci_ext_47, fibonacci_ext_checked_47, F_47, ?_⟩
  rw [fibonacci_ext_47]
  decide

/-- C1, amended: for every integer `n` with `0 ≤ n ≤ 46`, `fibonacci_ext n` is
the `n`-th Fibonacci number `F(n)`, where `F(0) = 0`, `F(1) = 1` and
`F(k+2) = F(k+1) + F(k)`; in particular `fibonacci_ext` maps `0, 1, 2, 10, 20`
to `0, 1, 1, 55, 6765`. -/
theorem C1_fibonacci_ext_eq_F (n : Int) (h0 : 0 ≤ n) (h1 : n ≤ 46) :
    fibonacci_ext n = (F n.toNat : Int) ∧
      (F 0 = 0 ∧ F 1 = 1 ∧ ∀ k : Nat, F (k + 2) = F (k + 1) + F k) ∧
      fibonacci_ext 0 = 0 ∧ fibonacci_ext 1 = 1 ∧ fibonacci_ext 2 = 1 ∧
      fibonacci_ext 10 = 55 ∧ fibonacci_ext 20 = 6765 := by
  refine ⟨fibonacci_ext_eq_F h0 h1, ⟨rfl, rfl, F_succ_succ⟩, ?_, ?_, ?_, ?_, ?_⟩
  · exact fibonacci_ext_base (by decide)
  · exact fibonacci_ext_base (by decide)
  · rw [fibonacci_ext_eq_F (by decide) (by decide)]; decide
  · rw [fibonacci_ext_eq_F (by decide) (by decide)]; decide
  · rw [fibonacci_ext_eq_F (by decide) (by decide)]; decide

/-- C1, amended, at `n = 46`, the largest argument it covers. -/
theorem C1_witness :
    (0 : Int) ≤ 46 ∧ (46 : Int) ≤ 46 ∧ fibonacci_ext 46 = (F (46 : Int).toNat : Int) :=
  ⟨by decide, by decide, (C1_fibonacci_ext_eq_F 46 (by decide) (by decide)).1⟩

/-- C2: for every integer `n ≥ 2`, `fibonacci_ext n` is the `int` sum (with
wrap-around) of `fibonacci_ext (n - 1)` and `fibonacci_ext (n - 2)`; up to
`n = 46` that sum is the exact one. -/
theorem C2_recurrence (n : Int) (h : 2 ≤ n) :
    fibonacci_ext n = int_add (fibonacci_ext (n - 1)) (fibonacci_ext (n - 2)) ∧
      (n ≤ 46 → fibonacci_ext n = fibonacci_ext (n - 1) + fibonacci_ext (n - 2)) :=
  ⟨fibonacci_ext_step h, fun h1 => fibonacci_ext_exact_step h h1⟩

/-- C2 at `n = 47`, where the sum wraps around. -/
theorem C2_witness :
    (2 : Int) ≤ 47 ∧
      fibonacci_ext 47 = int_add (fibonacci_ext (47 - 1)) (fibonacci_ext (47 - 2)) :=
  ⟨by decide, (C2_recurrence 47 (by decide)).1⟩

/-- C3, as stated, fails at `n = 46`: `fibonacci_ext 46 = 1836311903` and
`fibonacci_ext (46 + 1) = -1323752223`. -/
theorem C3_counterexample :
    (0 : Int) ≤ 46 ∧ fibonacci_ext 46 = 1836311903 ∧ fibonacci_ext (46 + 1) = -1323752223 ∧
      ¬ (fibonacci_ext (46 + 1) ≥ fibonacci_ext 46) := by
  have e : fibonacci_ext (46 + 1) = -1323752223 := fibonacci_ext_47
  refine ⟨by decide, fibonacci_ext_46, e, ?_⟩
  rw [e, fibonacci_ext_46]
  decide

/-- C3, amended: for every integer `n` with `0 ≤ n ≤ 45`,
`fibonacci_ext (n + 1) ≥ fibonacci_ext n`. -/
theorem C3_monotone (n : Int) (h0 : 0 ≤ n) (h1 : n ≤ 45) :
    fibonacci_ext (n + 1) ≥ fibonacci_ext n :=
  fibonacci_ext_succ_ge h0 h1

/-- C3, amended, at `n = 45`, the largest argument it covers. -/
theorem C3_witness :
    (0 : Int) ≤ 45 ∧ (45 : Int) ≤ 45 ∧ fibonacci_ext (45 + 1) ≥ fibonacci_ext 45 :=
  ⟨by decide, by decide, C3_monotone 45 (by decide) (by decide)⟩

/-- C4: for every integer `n < 2`, negative ones included, `fibonacci_ext n`
is `n` itself: the first activation returns it without a recursive call, and no
addition (hence no overflow) takes place. -/
theorem C4_below_two (n : Int) (h : n < 2) :
    fibonacci_ext n = n ∧ fibonacci_ext_checked n = some n ∧
      fibonacci_ext_fuel 1 n = some n ∧ trace n = CallTree.leaf n := by
  refine ⟨fibonacci_ext_base h, fibonacci_ext_checked_base h, ?_, trace_base h⟩
  simp only [fibonacci_ext_fuel, if_pos h]

/-- C4 at `n = -5`. -/
theorem C4_witness : (-5 : Int) < 2 ∧ fibonacci_ext (-5) = -5 :=
  ⟨by decide, (C4_below_two (-5) (by decide)).1⟩

/-- C6: `fibonacci_ext` returns for every integer `n`, negative ones included
(`n.toNat + 1` nested activations are enough); every recursive call is made by
an activation with `n ≥ 2`, on `n - 1` or `n - 2`, both strictly smaller; an
activation with `n < 2` calls nothing; the caller/callee relation is
well-founded. -/
theorem C6_terminates :
    (∀ n : Int, fibonacci_ext_fuel (n.toNat + 1) n = some (fibonacci_ext n)) ∧
      (∀ n : Int, ∀ s ∈ (trace n).kids,
        2 ≤ n ∧ CallTree.arg s < n ∧ (CallTree.arg s = n - 1 ∨ CallTree.arg s = n - 2)) ∧
      (∀ n : Int, n < 2 → (trace n).kids = []) ∧
      WellFounded (fun m n : Int => ∃ s ∈ (trace n).kids, CallTree.arg s = m) := by
  refine ⟨fun n => fibonacci_ext_fuel_complete _ n (Nat.lt_succ_self _), ?_,
    fun n h => trace_kids_base h, callee_wf⟩
  intro n s hs
  have := callee_toNat_lt ⟨s, hs, rfl⟩
  omega

/-- C7: with `int` the 32-bit signed integer, for every `n` with
`0 ≤ n ≤ 46` the evaluation of `fibonacci_ext n` meets no overflowing addition
and returns exactly `F(n)`; `F(46) = 1836311903 ≤ 2^31 - 1`, every `F(k)` with
`k < 47` fits, and `F(47) = 2971215073 > 2^31 - 1`, so that the evaluation at
`47` does overflow. -/
theorem C7_no_overflow_up_to_46 (n : Int) (h0 : 0 ≤ n) (h1 : n ≤ 46) :
    fibonacci_ext_checked n = some (F n.toNat : Int) ∧
      INT_MAX = 2 ^ 31 - 1 ∧
      F 46 = 1836311903 ∧ (F 46 : Int) ≤ INT_MAX ∧
      (∀ k : Nat, k < 47 → (F k : Int) ≤ INT_MAX) ∧
      F 47 = 2971215073 ∧ INT_MAX < (F 47 : Int) ∧
      fibonacci_ext_checked 47 = none := by
  refine ⟨fibonacci_ext_checked_eq_F h0 h1, by decide, F_46, by decide, ?_, F_47, by decide,
    fibonacci_ext_checked_47⟩
  intro k hk
  exact (F_inRange (by omega)).2

/-- C7 at `n = 46`, the largest argument without overflow. -/
theorem C7_witness :
    (0 : Int) ≤ 46 ∧ (46 : Int) ≤ 46 ∧
      fibonacci_ext_checked 46 = some (F (46 : Int).toNat : Int) :=
  ⟨by decide, by decide, (C7_no_overflow_up_to_46 46 (by decide) (by decide)).1⟩

/-- C8: with wrap-around `int` addition, for every `n ≥ 0` the value
`fibonacci_ext n` is `F(n)` reduced modulo `2^32` and read as a signed 32-bit
value: it lies in the `int` range and differs from `F(n)` by a multiple of
`2^32`; at `n = 47` it is `2971215073 - 2^32 = -1323752223`. -/
theorem C8_wraps (n : Int) (h : 0 ≤ n) :
    fibonacci_ext n = wrap32 (F n.toNat : Int) ∧
      inRange (fibonacci_ext n) ∧
      (fibonacci_ext n - (F n.toNat : Int)) % 2 ^ 32 = 0 ∧
      fibonacci_ext 47 = 2971215073 - 2 ^ 32 ∧ fibonacci_ext 47 = -1323752223 := by
  have e := fibonacci_ext_eq_wrap h
  refine ⟨e, ?_, ?_, ?_, fibonacci_ext_47⟩
  · rw [e]; exact wrap32_inRange _
  · rw [e]; exact wrap32_congr _
  · rw [fibonacci_ext_47]; decide

/-- C8 at `n = 47`, the first argument whose value wraps. -/
theorem C8_witness :
    (0 : Int) ≤ 47 ∧ fibonacci_ext 47 = wrap32 (F (47 : Int).toNat : Int) :=
  ⟨by decide, (C8_wraps 47 (by decide)).1⟩

/-- C9: the number of activations of a call `fibonacci_ext n` is `1` for
`n < 2` and one more than the activations of its two callees for `n ≥ 2`; for
every `n ≥ 0` it equals `2 * F(n+1) - 1`, hence it is at least `F(n+1)`, and at
least `2 ^ (n / 2)`; the activations counted are those that compute
`fibonacci_ext n`. -/
theorem C9_calls (n : Int) (h : 0 ≤ n) :
    ((trace n).calls : Int) = 2 * (F (n.toNat + 1) : Int) - 1 ∧
      F (n.toNat + 1) ≤ (trace n).calls ∧
      2 ^ (n.toNat / 2) ≤ (trace n).calls ∧
      (trace n).value = fibonacci_ext n ∧
      (∀ m : Int, m < 2 → (trace m).calls = 1) ∧
      (∀ m : Int, 2 ≤ m →
        (trace m).calls = 1 + (trace (m - 1)).calls + (trace (m - 2)).calls) := by
  have e := (trace_calls_natCast n.toNat).1
  rw [Int.toNat_of_nonneg h] at e
  have hp := (two_pow_le_F n.toNat).1
  have h1 : 1 ≤ F (n.toNat + 1) := Nat.le_trans Nat.one_le_two_pow hp
  refine ⟨by omega, by omega, by omega, trace_value n, ?_, ?_⟩
  · intro m hm
    rw [trace_base hm]; rfl
  · intro m hm
    rw [trace_step hm]; rfl

/-- C9 at `n = 5`: 15 activations, `F(6) = 8`. -/
theorem C9_witness :
    (0 : Int) ≤ 5 ∧ ((trace 5).calls : Int) = 2 * (F ((5 : Int).toNat + 1) : Int) - 1 :=
  ⟨by decide, (C9_calls 5 (by decide)).1⟩

/-- C10: for every `n ≥ 1`, the largest number of simultaneously nested
activations of a call `fibonacci_ext n`, the initial one included, is `n`; and
every activation of it whose argument `m` is at least `2` starts exactly two
calls, on `m - 1` and on `m - 2`; the activations are those that compute
`fibonacci_ext n`. -/
theorem C10_depth (n : Int) (h : 1 ≤ n) :
    ((trace n).depth : Int) = n ∧ (trace n).value = fibonacci_ext n ∧
      ∀ s ∈ (trace n).activations, 2 ≤ CallTree.arg s →
        (CallTree.kids s).length = 2 ∧
          (CallTree.kids s).map CallTree.arg = [CallTree.arg s - 1, CallTree.arg s - 2] := by
  refine ⟨?_, trace_value n, ?_⟩
  · have e := (trace_depth_natCast (n - 1).toNat).1
    have c : (((n - 1).toNat + 1 : Nat) : Int) = n := by omega
    rw [c] at e
    omega
  · intro s hs h2
    have e := trace_activations n s hs
    have k := trace_kids_step h2
    rw [← e] at k
    rw [k]
    exact ⟨rfl, by simp [trace_arg]⟩

/-- C10 at `n = 3`. -/
theorem C10_witness : (1 : Int) ≤ 3 ∧ ((trace 3).depth : Int) = 3 :=
  ⟨by decide, (C10_depth 3 (by decide)).1⟩

end FibonacciExt
